import Mathlib

set_option maxHeartbeats 1000000
set_option linter.unusedSectionVars false

/-
Shallow embedding of src/ipywidgets/widgets/trait_types/traits.py.

Python dictionaries are modelled as insertion-ordered association lists
(a real dict additionally keeps its keys duplicate-free; where a result
depends on that invariant the theorem assumes it as a nodupKeys
hypothesis).  Python lists are Lean lists; the Undefined sentinel used by
the eventful hooks is the none of an Option.  The eventful wrapping
protocol itself (class Eventful, the abstracted and abstracted_once
context managers) lives in eventful.py, which is not among the staged
source files, so the protocol is modelled from the spec; the per-operation
hooks are translated from traits.py.
-/

namespace IpyTraits

/-- Modelled from the spec: the eventful wrapping protocol of section 4.3
of the spec (class Eventful of eventful.py, not a staged source file).
An instrumented call runs the before-hook on the pre-mutation container,
performs the original mutation, then runs the after-hook on the
post-mutation container with the captured state; the after-hook yields the
list of change records the call emits (empty, one, or - for accumulating
hooks - one per changed sub-key). -/
def instrument {σ α β ρ : Type _} (before : σ → α → β) (mutate : σ → α → σ)
    (after : σ → β → List ρ) (s : σ) (a : α) : σ × List ρ :=
  let st := before s a
  let post := mutate s a
  (post, after post st)

/-- A Python dict as an insertion-ordered association list. -/
abbrev PyDict (K V : Type _) := List (K × V)

variable {K V : Type _} [DecidableEq K] [DecidableEq V]

/-- Lookup: the value of the first entry holding the key (a genuine dict
has at most one). -/
def dget? : PyDict K V → K → Option V
  | [], _ => none
  | (k', v') :: rest, k => if k' = k then some v' else dget? rest k

/-- Python d[k] = v: replace the value of the existing entry in place, or
append a new entry at the end (insertion order semantics). -/
def dset : PyDict K V → K → V → PyDict K V
  | [], k, v => [(k, v)]
  | (k', v') :: rest, k, v =>
      if k' = k then (k', v) :: rest else (k', v') :: dset rest k v

/-- Python d.update(m): one dset per entry of m, in m iteration order. -/
def pyUpdate (d m : PyDict K V) : PyDict K V :=
  m.foldl (fun acc p => dset acc p.1 p.2) d

/-- The key list of a dict. -/
def dkeys (d : PyDict K V) : List K := d.map Prod.fst

/-- The keys are duplicate-free: the invariant every real Python dict has. -/
def nodupKeys (d : PyDict K V) : Prop := (dkeys d).Nodup

instance (d : PyDict K V) : Decidable (nodupKeys d) := by
  unfold nodupKeys; infer_instance

/-- The record EventfulElements._after_setitem builds: Bunch(key=key,
old=old, new=new), with old = none when the key was absent (Undefined). -/
structure SetRecord (K V : Type _) where
  key : K
  old : Option V
  new : V
deriving DecidableEq, Repr

/-- The record EventfulElements._before_delitem builds: Bunch(key=key, old=old). -/
structure DelRecord (K V : Type _) where
  key : K
  old : V
deriving DecidableEq, Repr

/-- EventfulElements._before_setitem: capture the target key and the value
currently stored there, or Undefined (none) when the lookup raises
KeyError or IndexError. -/
def beforeSetitem (lookup : K → Option V) (k : K) : K × Option V :=
  (k, lookup k)

/-- EventfulElements._after_setitem: re-read the value at the key in the
mutated container; emit Bunch(key, old, new) when it differs from the
captured old value, nothing when they are equal.  (In the source the
post-mutation lookup is value[key], which cannot fail at the call sites
modelled here; the none branch is unreachable.) -/
def afterSetitem (lookup : K → Option V) (st : K × Option V) : Option (SetRecord K V) :=
  match lookup st.1 with
  | none => none
  | some new => if some new = st.2 then none else some ⟨st.1, st.2, new⟩

/-- The instrumented dict __setitem__ (event "setitem" of EventfulDict):
before-hook _before_setitem, original mutation d[k] = v, after-hook
_after_setitem. -/
def setitemOp (d : PyDict K V) (a : K × V) : PyDict K V × List (SetRecord K V) :=
  instrument
    (fun d a => beforeSetitem (dget? d) a.1)
    (fun d a => dset d a.1 a.2)
    (fun post st => (afterSetitem (dget? post) st).toList)
    d a

/-- EventfulDict._before_update: merge the keyword arguments into the
positional mapping argument (named arguments win on collision), then one
abstracted setitem per entry of the merged mapping; the real
dict.update(args0, **kwargs) then runs, where args0 has already been
mutated into the merged mapping; each abstracted setitem's after-hook
reads the post-mutation dict. -/
def updateOp (d : PyDict K V) (pos kw : PyDict K V) :
    PyDict K V × List (SetRecord K V) :=
  instrument
    (fun d a => (pyUpdate a.1 a.2).map (fun p => beforeSetitem (dget? d) p.1))
    (fun d (a : PyDict K V × PyDict K V) => pyUpdate (pyUpdate d (pyUpdate a.1 a.2)) a.2)
    (fun post sts => sts.filterMap (afterSetitem (dget? post)))
    d (pos, kw)

/-- The contents of the caller's positional argument after
EventfulDict._before_update has executed new.update(call.kwargs) on it:
the hook mutates that object in place. -/
def updateArgAfterHook (pos kw : PyDict K V) : PyDict K V := pyUpdate pos kw

/-- Python list indexing xs[i] for a non-negative index, as an Option
(none models the IndexError branch caught by _before_setitem). -/
def lget? (xs : List V) (i : Nat) : Option V := xs.get? i

/-- Python xs.index(x): the index of the first element equal to x, none
when absent (the ValueError branch of list.index). -/
def listIndex? (x : V) : List V → Option Nat
  | [] => none
  | y :: ys => if y = x then some 0 else (listIndex? x ys).map (· + 1)

/-- EventfulList._before_extend: one abstracted setitem per element of the
extending sequence, at the indices produced by enumerate(call.args[0]) -
which starts at 0, not at the current length; the real list.extend then
appends, and each abstracted setitem's after-hook reads the extended
list. -/
def extendOp (xs ys : List V) : List V × List (SetRecord Nat V) :=
  instrument
    (fun xs ys => ys.enum.map (fun p => beforeSetitem (lget? xs) p.1))
    (fun xs ys => xs ++ ys)
    (fun post sts => sts.filterMap (afterSetitem (lget? post)))
    xs ys

/-- EventfulList._before_append: a single abstracted setitem at index
len(value). -/
def appendOp (xs : List V) (x : V) : List V × List (SetRecord Nat V) :=
  instrument
    (fun xs _ => beforeSetitem (lget? xs) xs.length)
    (fun xs x => xs ++ [x])
    (fun post st => (afterSetitem (lget? post) st).toList)
    xs x

/-- EventfulElements._before_delitem for a list index: capture the element
at the index (the record emitted for the delitem event).  The source
catches KeyError only; an out-of-range list index would raise, but every
call site below passes an in-range index. -/
def beforeDelitem (xs : List V) (i : Nat) : Option (DelRecord Nat V) :=
  (lget? xs i).map (fun old => ⟨i, old⟩)

/-- The instrumented list __delitem__ (event "delitem"): the before-hook
record is emitted unchanged after the deletion. -/
def delitemOp (xs : List V) (i : Nat) : List V × List (DelRecord Nat V) :=
  instrument
    (fun xs i => beforeDelitem xs i)
    (fun xs i => xs.eraseIdx i)
    (fun _ st => st.toList)
    xs i

/-- The outcome of a mutating call that may raise before mutating:
the container contents afterwards, the emitted records, and whether the
call raised. -/
structure OpOutcome (σ ρ : Type _) where
  state : σ
  records : List ρ
  raised : Bool
deriving DecidableEq, Repr

/-- EventfulList._before_remove: value.index(call.args[0]) resolves the
first index of the value - raising ValueError when it is absent, in which
case the hook aborts the call before any mutation and no record is
emitted - then a single abstracted delitem at that index. -/
def removeOp (xs : List V) (x : V) : OpOutcome (List V) (DelRecord Nat V) :=
  match listIndex? x xs with
  | none => ⟨xs, [], true⟩
  | some i => ⟨(delitemOp xs i).1, (delitemOp xs i).2, false⟩

/-- The record EventfulList.rearrangement builds: Bunch(old=snapshot taken
before the mutation, new=the list contents afterwards). -/
structure RearrangeRecord (V : Type _) where
  old : List V
  new : List V
deriving DecidableEq, Repr

/-- EventfulList._before_reverse: rearrangement snapshots the whole list
(old = new[:]) before list.reverse runs; the after closure always returns
Bunch(old, new), with no equality suppression. -/
def reverseOp (xs : List V) (a : Unit) : List V × List (RearrangeRecord V) :=
  instrument
    (fun xs _ => xs)
    (fun xs _ => xs.reverse)
    (fun post old => [⟨old, post⟩])
    xs a

/-- Stable ascending insertion used to model list.sort (ascending order,
no key function). -/
def pyInsortElem [LinearOrder V] (x : V) : List V → List V
  | [] => [x]
  | y :: ys => if x < y then x :: y :: ys else y :: pyInsortElem x ys

/-- The contents list.sort leaves behind, modelled as an insertion sort. -/
def pySorted [LinearOrder V] (xs : List V) : List V :=
  xs.foldr pyInsortElem []

/-- EventfulList._before_sort: exactly like _before_reverse, with the
mutation list.sort. -/
def sortOp [LinearOrder V] (xs : List V) (a : Unit) : List V × List (RearrangeRecord V) :=
  instrument
    (fun xs _ => xs)
    (fun xs _ => pySorted xs)
    (fun post old => [⟨old, post⟩])
    xs a

/-- The module-level _color_names list, transcribed verbatim (note the two
entries with a trailing space, as in the source). -/
def colorNames : List String := [
  "aliceblue", "antiquewhite", "aqua", "aquamarine", "azure", "beige",
  "bisque", "black", "blanchedalmond", "blue", "blueviolet", "brown",
  "burlywood", "cadetblue", "chartreuse", "chocolate", "coral", "cornflowerblue",
  "cornsilk", "crimson", "cyan", "darkblue", "darkcyan", "darkgoldenrod",
  "darkgray", "darkgreen", "darkkhaki", "darkmagenta", "darkolivegreen", "darkorange",
  "darkorchid", "darkred", "darksalmon", "darkseagreen", "darkslateblue", "darkslategray",
  "darkturquoise", "darkviolet", "deeppink", "deepskyblue", "dimgray", "dodgerblue",
  "firebrick", "floralwhite", "forestgreen", "fuchsia", "gainsboro", "ghostwhite",
  "gold", "goldenrod", "gray", "green", "greenyellow", "honeydew",
  "hotpink", "indianred ", "indigo ", "ivory", "khaki", "lavender",
  "lavenderblush", "lawngreen", "lemonchiffon", "lightblue", "lightcoral", "lightcyan",
  "lightgoldenrodyellow", "lightgray", "lightgreen", "lightpink", "lightsalmon", "lightseagreen",
  "lightskyblue", "lightslategray", "lightsteelblue", "lightyellow", "lime", "limegreen",
  "linen", "magenta", "maroon", "mediumaquamarine", "mediumblue", "mediumorchid",
  "mediumpurple", "mediumseagreen", "mediumslateblue", "mediumspringgreen", "mediumturquoise", "mediumvioletred",
  "midnightblue", "mintcream", "mistyrose", "moccasin", "navajowhite", "navy",
  "oldlace", "olive", "olivedrab", "orange", "orangered", "orchid",
  "palegoldenrod", "palegreen", "paleturquoise", "palevioletred", "papayawhip", "peachpuff",
  "peru", "pink", "plum", "powderblue", "purple", "rebeccapurple",
  "red", "rosybrown", "royalblue", "saddlebrown", "salmon", "sandybrown",
  "seagreen", "seashell", "sienna", "silver", "skyblue", "slateblue",
  "slategray", "snow", "springgreen", "steelblue", "tan", "teal",
  "thistle", "tomato", "turquoise", "violet", "wheat", "white",
  "whitesmoke", "yellow", "yellowgreen"]

/-- Python str.lower, restricted to the ASCII range the color names and
hex strings live in. -/
def pyLower (s : String) : String := String.mk (s.data.map Char.toLower)

/-- One hex digit: the character class of _color_re. -/
def hexDigitChar (c : Char) : Bool :=
  c.isDigit || ('a' ≤ c && c ≤ 'f') || ('A' ≤ c && c ≤ 'F')

/-- Consume exactly three hex digits, returning the remainder. -/
def hex3 : List Char → Option (List Char)
  | a :: b :: c :: rest =>
      if hexDigitChar a && hexDigitChar b && hexDigitChar c then some rest else none
  | _ => none

/-- Python re dollar anchor: a match position at the end of the string, or
just before one final newline. -/
def endOk : List Char → Bool
  | [] => true
  | [c] => c == '\n'
  | _ => false

/-- What follows the hash sign in _color_re: three hex digits, an optional
further three, then the dollar anchor (greedy group first, then the
group-absent alternative, as the regex engine backtracks). -/
def colorBody (rest : List Char) : Bool :=
  match hex3 rest with
  | none => false
  | some r1 =>
      endOk r1 ||
        (match hex3 r1 with
         | some r2 => endOk r2
         | none => false)

/-- _color_re.match(value): the pattern hash + 3 hex + optional 3 hex +
dollar, anchored at the start by re.match. -/
def colorReMatch (s : String) : Bool :=
  match s.data with
  | c :: rest => c == '#' && colorBody rest
  | [] => false

/-- The result of a validator: the value passed through, or a validation
error carrying the offending value. -/
inductive ValResult (A : Type _) where
  | ok (v : A)
  | err (offending : A)
deriving DecidableEq, Repr

/-- Color.validate: succeed iff value.lower() is one of the color names or
_color_re matches value; self.error(obj, value) otherwise. -/
def colorValidate (s : String) : ValResult String :=
  if colorNames.contains (pyLower s) || colorReMatch s then .ok s else .err s

/-- A Python datetime value (naive, as the serializer assumes). -/
structure PyDatetime where
  year : Nat
  month : Nat
  day : Nat
  hour : Nat
  minute : Nat
  second : Nat
  microsecond : Nat
deriving DecidableEq, Repr

/-- The wire dictionary datetime_to_json builds (attributes for the
JavaScript Date constructor). -/
structure JsDate where
  year : Nat
  month : Nat
  date : Nat
  hours : Nat
  minutes : Nat
  seconds : Nat
  milliseconds : Nat
deriving DecidableEq, Repr

/-- datetime_to_json: None maps to None; otherwise month becomes 0-based
and milliseconds = microsecond / 1000 (the module targets Python 2, where
/ on ints is floor division; under Python 3 true division the value would
be a float and the deserializer below would reject it). -/
def datetime_to_json : Option PyDatetime → Option JsDate
  | none => none
  | some d => some ⟨d.year, d.month - 1, d.day, d.hour, d.minute, d.second,
      d.microsecond / 1000⟩

/-- datetime_from_json: None maps to None; otherwise month becomes 1-based
and microsecond = milliseconds * 1000. -/
def datetime_from_json : Option JsDate → Option PyDatetime
  | none => none
  | some j => some ⟨j.year, j.month + 1, j.date, j.hours, j.minutes, j.seconds,
      j.milliseconds * 1000⟩

/-- The fill and alignment characters of _number_format_re. -/
def alignChars : List Char := ['<', '>', '=', '^']

/-- The sign characters of _number_format_re. -/
def signChars : List Char := ['+', '-', '(', ' ']

/-- The optional fill+align prefix of _number_format_re: the engine first
tries fill (any character but a newline) followed by an align character,
then an align character alone, then nothing.  No later character class
contains an align character, so this greedy local choice is the only one
that can let the whole pattern match. -/
def parseFillAlign : List Char → List Char
  | c0 :: c1 :: rest =>
      if alignChars.contains c1 && c0 != '\n' then rest
      else if alignChars.contains c0 then c1 :: rest
      else c0 :: c1 :: rest
  | [c0] => if alignChars.contains c0 then [] else [c0]
  | [] => []

/-- One optional character from a class. -/
def parseOpt (p : Char → Bool) : List Char → List Char
  | c :: rest => if p c then rest else c :: rest
  | [] => []

/-- The optional precision group: a dot followed by at least one digit,
greedy. -/
def parsePrecision : List Char → List Char
  | '.' :: c :: rest =>
      if c.isDigit then (c :: rest).dropWhile Char.isDigit else '.' :: c :: rest
  | l => l

/-- The optional type-code group (group 9): one letter or a percent sign,
case-insensitive because of re.I. -/
def parseTypeCode : List Char → Option Char × List Char
  | c :: rest => if c.isAlpha || c == '%' then (some c, rest) else (none, c :: rest)
  | [] => (none, [])

/-- _number_format_re.match(value): some g9 when the pattern matches (g9
the captured type code, none when the group is empty), none when it does
not match.  The trailing dollar accepts one final newline, as in Python. -/
def numberFormatMatch (s : String) : Option (Option Char) :=
  let r1 := parseFillAlign s.data
  let r2 := parseOpt (fun c => signChars.contains c) r1
  let r3 := parseOpt (fun c => c == '$' || c == '#') r2
  let r4 := parseOpt (fun c => c == '0') r3
  let r5 := r4.dropWhile Char.isDigit
  let r6 := parseOpt (fun c => c == ',') r5
  let r7 := parsePrecision r6
  let g9r8 := parseTypeCode r7
  if endOk g9r8.2 then some g9r8.1 else none

/-- The _number_format_types set, as the Python strings it holds (note the
empty string member). -/
def numberFormatTypes : List String :=
  ["e", "f", "g", "r", "s", "%", "p", "b", "o", "d", "x", "X", "c", ""]

/-- The result of NumberFormat.validate: the value, self.error for a
string the grammar rejects, or the TraitError naming the allowed set and
the offending type code. -/
inductive NFResult where
  | ok (v : String)
  | errValue (offending : String)
  | errType (allowed : List String) (code : String)
deriving DecidableEq, Repr

/-- NumberFormat.validate: reject when the regex does not match; accept
when group 9 is absent or its code is in _number_format_types; otherwise
raise the TraitError carrying the allowed set and the code. -/
def numberFormatValidate (s : String) : NFResult :=
  match numberFormatMatch s with
  | none => .errValue s
  | some none => .ok s
  | some (some c) =>
      if String.mk [c] ∈ numberFormatTypes then .ok s
      else .errType numberFormatTypes (String.mk [c])

/-- The target type of an InstanceDict, abstracted: its constructor
records the named arguments it was called with. -/
structure Target where
  kwargs : List (String × Int)
deriving DecidableEq, Repr

/-- A value handed to InstanceDict.validate: a mapping, an instance of the
target type, or some other object. -/
inductive PyVal where
  | vdict (entries : List (String × Int))
  | vtarget (t : Target)
  | vint (n : Int)
deriving DecidableEq, Repr

/-- The result of the reference validators. -/
inductive InstResult where
  | ok (t : Target)
  | err (offending : PyVal)
deriving DecidableEq, Repr

/-- Modelled from the spec: Instance.validate of the external traitlets
framework (section 4.2 and 6 of the spec) - validate the value directly
against the target type, an identity or subtype check that fails with a
type error when the value is not an instance. -/
def instanceValidate (v : PyVal) : InstResult :=
  match v with
  | .vtarget t => .ok t
  | other => .err other

/-- InstanceDict.validate: a dict argument is turned into
self.klass(**value) and that instance is validated; anything else is
validated as it is. -/
def instanceDictValidate (v : PyVal) : InstResult :=
  match v with
  | .vdict d => instanceValidate (.vtarget (Target.mk d))
  | _ => instanceValidate v

/-- The spec sentence for Color, read literally: the lowered value is a
color name, or the value is exactly hash + 3 or 6 hex digits (the anchored
pattern as a formal language, with no trailing-newline allowance). -/
def StrictSpecColor (s : String) : Prop :=
  pyLower s ∈ colorNames ∨
    ∃ t, s.data = '#' :: t ∧ (t.length = 3 ∨ t.length = 6) ∧ t.all hexDigitChar = true

/-- The Color acceptance condition as the code realizes it: as
StrictSpecColor, except that the hex form may also carry one final newline
(Python re dollar semantics). -/
def AmendedSpecColor (s : String) : Prop :=
  pyLower s ∈ colorNames ∨
    ∃ t, (s.data = '#' :: t ∨ s.data = '#' :: (t ++ ['\n'])) ∧
      (t.length = 3 ∨ t.length = 6) ∧ t.all hexDigitChar = true

/-! Lemmas about the dict model. -/

theorem dget?_dset (d : PyDict K V) (k k' : K) (v : V) :
    dget? (dset d k v) k' = if k = k' then some v else dget? d k' := by
  induction d with
  | nil => simp [dset, dget?]
  | cons p t ih =>
    obtain ⟨k0, v0⟩ := p
    by_cases h : k0 = k <;> by_cases h' : k = k' <;>
      simp_all [dset, dget?]

theorem dset_eq_self (d : PyDict K V) (k : K) (v : V) :
    dset d k v = d ↔ dget? d k = some v := by
  induction d with
  | nil => simp [dset, dget?]
  | cons p t ih =>
    obtain ⟨k0, v0⟩ := p
    by_cases h : k0 = k <;> simp_all [dset, dget?, eq_comm]

theorem dget?_append_some {l₁ : PyDict K V} {k : K} {v : V}
    (l₂ : PyDict K V) (h : dget? l₁ k = some v) : dget? (l₁ ++ l₂) k = some v := by
  induction l₁ with
  | nil => simp [dget?] at h
  | cons p t ih =>
    obtain ⟨k0, v0⟩ := p
    by_cases hk : k0 = k <;> simp_all [dget?]

theorem dget?_append_none {l₁ l₂ : PyDict K V} {k : K}
    (h : dget? l₁ k = none) : dget? (l₁ ++ l₂) k = dget? l₂ k := by
  induction l₁ with
  | nil => simp [dget?]
  | cons p t ih =>
    obtain ⟨k0, v0⟩ := p
    by_cases hk : k0 = k <;> simp_all [dget?]

theorem pyUpdate_cons (d : PyDict K V) (p : K × V) (t : PyDict K V) :
    pyUpdate d (p :: t) = pyUpdate (dset d p.1 p.2) t := rfl

theorem dget?_pyUpdate_none {m : PyDict K V} {k : K}
    (h : dget? m.reverse k = none) (d : PyDict K V) :
    dget? (pyUpdate d m) k = dget? d k := by
  induction m generalizing d with
  | nil => rfl
  | cons p t ih =>
    obtain ⟨k0, v0⟩ := p
    rw [List.reverse_cons] at h
    cases h1 : dget? t.reverse k with
    | some w => rw [dget?_append_some [(k0, v0)] h1] at h; exact absurd h (by simp)
    | none =>
      rw [dget?_append_none h1] at h
      rw [pyUpdate_cons, ih h1, dget?_dset]
      by_cases hk : k0 = k
      · subst hk; simp [dget?] at h
      · simp [hk]

theorem dget?_pyUpdate_some {m : PyDict K V} {k : K} {v : V}
    (d : PyDict K V) (h : dget? m.reverse k = some v) :
    dget? (pyUpdate d m) k = some v := by
  induction m generalizing d with
  | nil => simp [dget?] at h
  | cons p t ih =>
    obtain ⟨k0, v0⟩ := p
    rw [pyUpdate_cons]
    rw [List.reverse_cons] at h
    cases h1 : dget? t.reverse k with
    | some w =>
      have h2 := dget?_append_some [(k0, v0)] h1
      rw [h2] at h
      injection h with hwv
      subst hwv
      exact ih _ h1
    | none =>
      rw [dget?_append_none h1] at h
      by_cases hk : k0 = k
      · subst hk
        simp [dget?] at h
        subst h
        rw [dget?_pyUpdate_none h1, dget?_dset]
        simp
      · simp [dget?, hk] at h

theorem dkeys_dset (d : PyDict K V) (k : K) (v : V) :
    dkeys (dset d k v) = if k ∈ dkeys d then dkeys d else dkeys d ++ [k] := by
  induction d with
  | nil => simp [dset, dkeys]
  | cons p t ih =>
    obtain ⟨k0, v0⟩ := p
    by_cases h : k0 = k <;> simp_all [dset, dkeys, eq_comm]
    by_cases h' : k ∈ List.map Prod.fst t <;> simp_all

theorem nodupKeys_dset {d : PyDict K V} (hd : nodupKeys d) (k : K) (v : V) :
    nodupKeys (dset d k v) := by
  unfold nodupKeys at hd ⊢
  rw [dkeys_dset]
  by_cases h : k ∈ dkeys d
  · simpa [h] using hd
  · simp only [h, if_false]
    simp [List.nodup_append, hd, h]

theorem nodupKeys_pyUpdate {d : PyDict K V} (hd : nodupKeys d) (m : PyDict K V) :
    nodupKeys (pyUpdate d m) := by
  induction m generalizing d with
  | nil => exact hd
  | cons p t ih => exact ih (nodupKeys_dset hd p.1 p.2)

theorem dget?_eq_none_iff (d : PyDict K V) (k : K) :
    dget? d k = none ↔ k ∉ dkeys d := by
  induction d with
  | nil => simp [dget?, dkeys]
  | cons p t ih =>
    obtain ⟨k0, v0⟩ := p
    by_cases h : k0 = k <;> simp_all [dget?, dkeys, eq_comm]

theorem dget?_of_mem_nodup {d : PyDict K V} (hd : nodupKeys d)
    {k : K} {v : V} (h : (k, v) ∈ d) : dget? d k = some v := by
  induction d with
  | nil => simp at h
  | cons p t ih =>
    obtain ⟨k0, v0⟩ := p
    unfold nodupKeys dkeys at hd
    simp only [List.map_cons, List.nodup_cons] at hd
    rcases List.mem_cons.mp h with h | h
    · injection h with h1 h2
      subst h1
      subst h2
      simp [dget?]
    · have hk : k0 ≠ k := by
        intro he
        subst he
        exact hd.1 (List.mem_map_of_mem Prod.fst h)
      simp [dget?, hk]
      exact ih hd.2 h

theorem dget?_reverse {d : PyDict K V} (hd : nodupKeys d) (k : K) :
    dget? d.reverse k = dget? d k := by
  induction d with
  | nil => rfl
  | cons p t ih =>
    obtain ⟨k0, v0⟩ := p
    unfold nodupKeys dkeys at hd
    simp only [List.map_cons, List.nodup_cons] at hd
    have iht := ih hd.2
    rw [List.reverse_cons]
    by_cases hk : k0 = k
    · subst hk
      have h0 : dget? t k0 = none :=
        (dget?_eq_none_iff t k0).mpr hd.1
      rw [dget?_append_none (iht.trans h0)]
      simp [dget?]
    · cases h1 : dget? t k with
      | some w =>
        rw [dget?_append_some _ (iht.trans h1)]
        simp [dget?, hk, h1]
      | none =>
        rw [dget?_append_none (iht.trans h1)]
        simp [dget?, hk, h1]

theorem pyUpdate_eq_self_of_all {d m : PyDict K V}
    (h : ∀ p ∈ m, dget? d p.1 = some p.2) : pyUpdate d m = d := by
  induction m with
  | nil => rfl
  | cons p t ih =>
    rw [pyUpdate_cons, (dset_eq_self d p.1 p.2).mpr (h p (by simp))]
    exact ih (fun q hq => h q (by simp [hq]))

theorem filterMap_afterSetitem (postL preL : K → Option V) (l : PyDict K V)
    (h : ∀ p ∈ l, postL p.1 = some p.2) :
    (l.map (fun p => beforeSetitem preL p.1)).filterMap (afterSetitem postL) =
      (l.filter (fun p => decide (preL p.1 ≠ some p.2))).map
        (fun p => ⟨p.1, preL p.1, p.2⟩) := by
  induction l with
  | nil => rfl
  | cons p t ih =>
    have hp := h p (by simp)
    have ht := ih (fun q hq => h q (by simp [hq]))
    have hhead : afterSetitem postL (beforeSetitem preL p.1) =
        if preL p.1 = some p.2 then none else some ⟨p.1, preL p.1, p.2⟩ := by
      unfold afterSetitem beforeSetitem
      rw [hp]
      by_cases hc : preL p.1 = some p.2
      · simp [hc]
      · simp [hc, Ne.symm hc]
    simp only [List.map_cons, List.filterMap_cons, hhead, List.filter_cons]
    by_cases hc : preL p.1 = some p.2 <;> simp_all

theorem listIndex?_eq_none_iff (x : V) (xs : List V) :
    listIndex? x xs = none ↔ x ∉ xs := by
  induction xs with
  | nil => simp [listIndex?]
  | cons y ys ih =>
    by_cases h : y = x
    · subst h; simp [listIndex?]
    · cases hI : listIndex? x ys <;>
        simp_all [listIndex?, h, eq_comm]

theorem listIndex?_spec {x : V} {xs : List V} {i : Nat}
    (h : listIndex? x xs = some i) :
    lget? xs i = some x ∧ ∀ j, j < i → lget? xs j ≠ some x := by
  induction xs generalizing i with
  | nil => simp [listIndex?] at h
  | cons y ys ih =>
    by_cases hy : y = x
    · subst hy
      simp [listIndex?] at h
      subst h
      simp [lget?]
    · simp [listIndex?, hy] at h
      obtain ⟨i', hi', rfl⟩ := h
      obtain ⟨h1, h2⟩ := ih hi'
      refine ⟨h1, ?_⟩
      intro j hj
      cases j with
      | zero => simp [lget?, hy]
      | succ j' =>
        have := h2 j' (Nat.lt_of_succ_lt_succ hj)
        simpa [lget?] using this

/-! The claims about the eventful containers. -/

/-- C4: on an eventful mapping, a setitem assigning a key its current
value emits no notification; a setitem assigning a new key or a changed
value emits exactly one record whose old is the pre-mutation value (none,
the Undefined sentinel, for a previously absent key) and whose new is the
post-mutation value; a setitem call never emits more than one record. -/
theorem setitem_minimal_notification (d : PyDict K V) (k : K) (v : V) :
    setitemOp d (k, v) =
      (dset d k v, if dget? d k = some v then [] else [⟨k, dget? d k, v⟩]) ∧
    (setitemOp d (k, v)).2.length ≤ 1 := by
  have hpost : dget? (dset d k v) k = some v := by simp [dget?_dset]
  have hrec : setitemOp d (k, v) =
      (dset d k v, if dget? d k = some v then [] else [⟨k, dget? d k, v⟩]) := by
    have h0 : setitemOp d (k, v) =
        (dset d k v, (afterSetitem (dget? (dset d k v)) (k, dget? d k)).toList) := rfl
    rw [h0]
    by_cases hc : dget? d k = some v
    · simp [afterSetitem, hpost, hc]
    · simp [afterSetitem, hpost, hc, Ne.symm hc]
  refine ⟨hrec, ?_⟩
  rw [hrec]
  by_cases hc : dget? d k = some v <;> simp [hc]

/-- C5: eventful-dict update merges the named arguments over the
positional mapping (named precedence), emits exactly one setitem record
per changed key of the merged mapping - with the pre-mutation old value -
and no key is recorded twice; the final contents take each key from the
named arguments first, then the positional mapping, then the original
dict. -/
theorem update_per_changed_key (pre pos kw : PyDict K V)
    (hpos : nodupKeys pos) (hkw : nodupKeys kw) :
    (updateOp pre pos kw).2 =
      ((pyUpdate pos kw).filter (fun p => decide (dget? pre p.1 ≠ some p.2))).map
        (fun p => ⟨p.1, dget? pre p.1, p.2⟩) ∧
    ((updateOp pre pos kw).2.map SetRecord.key).Nodup ∧
    (∀ k, dget? (updateOp pre pos kw).1 k =
      match dget? kw k with
      | some v => some v
      | none =>
        match dget? pos k with
        | some v => some v
        | none => dget? pre k) := by
  have hmerged : nodupKeys (pyUpdate pos kw) := nodupKeys_pyUpdate hpos kw
  have hfst : (updateOp pre pos kw).1 =
      pyUpdate (pyUpdate pre (pyUpdate pos kw)) kw := rfl
  have hpostmem : ∀ p ∈ pyUpdate pos kw,
      dget? (updateOp pre pos kw).1 p.1 = some p.2 := by
    intro p hp
    rw [hfst]
    have hM : dget? (pyUpdate pos kw) p.1 = some p.2 :=
      dget?_of_mem_nodup hmerged hp
    cases h9 : dget? kw.reverse p.1 with
    | some w =>
      have hw : dget? (pyUpdate pos kw) p.1 = some w := dget?_pyUpdate_some pos h9
      rw [hM] at hw
      injection hw with hw
      subst hw
      exact dget?_pyUpdate_some _ h9
    | none =>
      rw [dget?_pyUpdate_none h9]
      have hMrev : dget? (pyUpdate pos kw).reverse p.1 = some p.2 := by
        rw [dget?_reverse hmerged]; exact hM
      exact dget?_pyUpdate_some _ hMrev
  have hrecords : (updateOp pre pos kw).2 =
      ((pyUpdate pos kw).filter (fun p => decide (dget? pre p.1 ≠ some p.2))).map
        (fun p => ⟨p.1, dget? pre p.1, p.2⟩) := by
    have h2 : (updateOp pre pos kw).2 =
        ((pyUpdate pos kw).map (fun p => beforeSetitem (dget? pre) p.1)).filterMap
          (afterSetitem (dget? (updateOp pre pos kw).1)) := rfl
    rw [h2, filterMap_afterSetitem _ _ _ hpostmem]
  refine ⟨hrecords, ?_, ?_⟩
  · rw [hrecords]
    have hmerged' : ((pyUpdate pos kw).map Prod.fst).Nodup := hmerged
    have hsub : List.Sublist
        (((pyUpdate pos kw).filter
          (fun p => decide (dget? pre p.1 ≠ some p.2))).map Prod.fst)
        ((pyUpdate pos kw).map Prod.fst) :=
      (List.filter_sublist _).map Prod.fst
    have hkeys : (((pyUpdate pos kw).filter
        (fun p => decide (dget? pre p.1 ≠ some p.2))).map
          (fun p => (⟨p.1, dget? pre p.1, p.2⟩ : SetRecord K V))).map SetRecord.key =
        ((pyUpdate pos kw).filter
          (fun p => decide (dget? pre p.1 ≠ some p.2))).map Prod.fst := by
      simp [List.map_map, Function.comp]
    rw [hkeys]
    exact hmerged'.sublist hsub
  · intro k
    rw [hfst]
    cases h9 : dget? kw.reverse k with
    | some w =>
      rw [dget?_pyUpdate_some _ h9]
      rw [dget?_reverse hkw] at h9
      rw [h9]
    | none =>
      rw [dget?_pyUpdate_none h9]
      have h9f : dget? kw k = none := by rw [← dget?_reverse hkw, h9]
      rw [h9f]
      cases hM : dget? (pyUpdate pos kw).reverse k with
      | some u =>
        rw [dget?_pyUpdate_some _ hM]
        rw [dget?_reverse hmerged] at hM
        rw [dget?_pyUpdate_none h9] at hM
        rw [hM]
      | none =>
        rw [dget?_pyUpdate_none hM]
        rw [dget?_reverse hmerged] at hM
        rw [dget?_pyUpdate_none h9] at hM
        rw [hM]

/-- C5 witness: update of a two-entry mapping onto a dict already holding
the first entry emits exactly one record, for the second key. -/
theorem update_per_changed_key_witness :
    nodupKeys ([("a", (1 : Int)), ("b", 2)]) ∧
    (updateOp [("a", (1 : Int))] [("a", 1), ("b", 2)] []).2 =
      [⟨"b", none, 2⟩] := by
  refine ⟨by decide, ?_⟩
  have h := (update_per_changed_key [("a", (1 : Int))] [("a", 1), ("b", 2)] []
    (by decide) (by decide)).1
  rw [h]
  decide

/-- C10 counterexample: _before_update does call new.update(call.kwargs)
on the positional argument, but when every named entry is already present
the contents of that argument are left exactly as the caller passed them -
here the kwargs entry a=1 is already in the positional mapping, which
stays unchanged. -/
theorem update_arg_mutation_counterexample :
    updateArgAfterHook [("a", (1 : Int))] [("a", 1)] = [("a", 1)] := by
  decide

/-- C10 amended: _before_update merges the named arguments into the
caller's positional mapping argument in place before iterating; the
argument's contents remain unchanged exactly when every named entry is
already present with the same value (named-argument keys are distinct, as
Python guarantees). -/
theorem update_arg_mutation_amended (pos kw : PyDict K V) (hkw : nodupKeys kw) :
    updateArgAfterHook pos kw = pos ↔ ∀ p ∈ kw, dget? pos p.1 = some p.2 := by
  unfold updateArgAfterHook
  constructor
  · intro h p hp
    have h9 : dget? kw.reverse p.1 = some p.2 := by
      rw [dget?_reverse hkw]
      exact dget?_of_mem_nodup hkw hp
    have := dget?_pyUpdate_some pos h9
    rwa [h] at this
  · exact pyUpdate_eq_self_of_all

/-- C10 witness: a named entry that is new does change the positional
argument, and one already present leaves it unchanged, both read off the
amended equivalence at concrete inputs. -/
theorem update_arg_mutation_witness :
    nodupKeys ([("b", (2 : Int))]) ∧
    updateArgAfterHook [("a", (1 : Int))] [("b", 2)] ≠ [("a", 1)] := by
  refine ⟨by decide, ?_⟩
  intro h
  have h2 := (update_arg_mutation_amended [("a", (1 : Int))] [("b", 2)]
    (by decide)).mp h
  have h3 := h2 ("b", 2) (by decide)
  revert h3
  decide

/-- C1: _before_extend brackets extend([x, y]) with setitems at the
indices of enumerate(call.args[0]), which start at 0, not at the current
length: extending [5] by [7, 9] emits the single record for index 1
(index 0 compares the unchanged head against itself and is suppressed,
and index 2 - where 9 actually landed - is never probed), where the claim
requires the two records at indices 1 and 2.  Only on an empty list do
the probed indices coincide with the appended ones. -/
theorem extend_enumerates_from_zero :
    extendOp ([5] : List Int) [7, 9] = ([5, 7, 9], [⟨1, none, 7⟩]) ∧
    extendOp ([] : List Int) [7, 9] = ([7, 9], [⟨0, none, 7⟩, ⟨1, none, 9⟩]) := by
  decide

/-- C6: reverse and sort snapshot the whole sequence before mutating and
always emit exactly one record holding that snapshot as old and the
mutated contents as new, with no equality suppression - in particular a
sort or reverse that leaves the contents unchanged still emits its one
record. -/
theorem rearrangement_unconditional_record [LinearOrder V] (xs : List V) :
    reverseOp xs () = (xs.reverse, [⟨xs, xs.reverse⟩]) ∧
    sortOp xs () = (pySorted xs, [⟨xs, pySorted xs⟩]) ∧
    (reverseOp xs ()).2.length = 1 ∧ (sortOp xs ()).2.length = 1 :=
  ⟨rfl, rfl, rfl, rfl⟩

/-- C7: remove(x) on a sequence not containing x raises the value-not-found
error of value.index before any mutation: the contents are unchanged and
no record is emitted; when x is present, remove is exactly the delitem at
the index of the first element equal to x. -/
theorem remove_absent_raises (xs : List V) (x : V) :
    (x ∉ xs → removeOp xs x = ⟨xs, [], true⟩) ∧
    (∀ i, listIndex? x xs = some i →
      removeOp xs x = ⟨(delitemOp xs i).1, (delitemOp xs i).2, false⟩ ∧
      lget? xs i = some x ∧ ∀ j, j < i → lget? xs j ≠ some x) := by
  constructor
  · intro hx
    unfold removeOp
    rw [(listIndex?_eq_none_iff x xs).mpr hx]
  · intro i hi
    refine ⟨?_, listIndex?_spec hi⟩
    unfold removeOp
    rw [hi]

/-- C7 witness: removing an absent value leaves [4, 5] unchanged with no
record and the raised flag set; removing 5 from [4, 5, 5] is the delitem
at the first matching index 1. -/
theorem remove_absent_raises_witness :
    removeOp ([4, 5] : List Int) 7 = ⟨[4, 5], [], true⟩ ∧
    removeOp ([4, 5, 5] : List Int) 5 =
      ⟨(delitemOp [4, 5, 5] 1).1, (delitemOp [4, 5, 5] 1).2, false⟩ :=
  ⟨(remove_absent_raises [4, 5] 7).1 (by decide),
   ((remove_absent_raises [4, 5, 5] 5).2 1 (by decide)).1⟩

/-! The claims about the scalar validators and the wire codec. -/

/-- C3 counterexample: the wire format only carries milliseconds
(microsecond / 1000, with the floor division of the Python 2 the module
targets), so a datetime with microsecond 1 comes back with microsecond 0:
the round trip is not the identity on every valid datetime. -/
theorem datetime_roundtrip_counterexample :
    datetime_from_json (datetime_to_json (some ⟨2015, 5, 12, 0, 0, 0, 1⟩)) ≠
      some ⟨2015, 5, 12, 0, 0, 0, 1⟩ := by
  decide

/-- C3 amended: both directions map None to None, and the round trip is
the identity on every valid datetime (month at least 1) whose microsecond
is a whole number of milliseconds - the only values the
millisecond-granular wire format can carry back. -/
theorem datetime_roundtrip_amended :
    datetime_to_json none = none ∧ datetime_from_json none = none ∧
    ∀ d : PyDatetime, 1 ≤ d.month → d.microsecond % 1000 = 0 →
      datetime_from_json (datetime_to_json (some d)) = some d := by
  refine ⟨rfl, rfl, ?_⟩
  intro d hm hus
  obtain ⟨y, mo, da, h, mi, s, us⟩ := d
  simp [datetime_to_json, datetime_from_json] at *
  omega

/-- C3 witness: the round trip restores a concrete datetime whose
microsecond count is a multiple of 1000. -/
theorem datetime_roundtrip_witness :
    1 ≤ (5 : Nat) ∧ (250000 : Nat) % 1000 = 0 ∧
    datetime_from_json (datetime_to_json (some ⟨2015, 5, 12, 13, 30, 15, 250000⟩)) =
      some ⟨2015, 5, 12, 13, 30, 15, 250000⟩ :=
  ⟨by decide, by decide,
   datetime_roundtrip_amended.2.2 ⟨2015, 5, 12, 13, 30, 15, 250000⟩
     (by decide) (by decide)⟩

/-- C9: the coercing reference type builds a target instance out of a
mapping argument - handing the mapping's entries to the constructor - and
validates that instance, which succeeds; an instance of the target type
passes through; any other value fails the instance check with an error
carrying the offending value. -/
theorem instancedict_coerces_mapping :
    (∀ d, instanceDictValidate (.vdict d) =
        instanceValidate (.vtarget (Target.mk d)) ∧
      instanceDictValidate (.vdict d) = .ok (Target.mk d)) ∧
    (∀ t, instanceDictValidate (.vtarget t) = .ok t) ∧
    (∀ n, instanceDictValidate (.vint n) = .err (.vint n)) :=
  ⟨fun _ => ⟨rfl, rfl⟩, fun _ => rfl, fun _ => rfl⟩

/-- C8: for a format string the grammar accepts with a type code present,
NumberFormat.validate succeeds exactly when the code is one of the fixed
d3-format types, and for any other code it raises the TraitError carrying
the allowed set and the offending code. -/
theorem numberformat_type_code (s : String) (c : Char)
    (h : numberFormatMatch s = some (some c)) :
    ((∃ v, numberFormatValidate s = .ok v) ↔ String.mk [c] ∈ numberFormatTypes) ∧
    (String.mk [c] ∉ numberFormatTypes →
      numberFormatValidate s = .errType numberFormatTypes (String.mk [c])) := by
  unfold numberFormatValidate
  rw [h]
  by_cases hc : String.mk [c] ∈ numberFormatTypes
  · simp [hc]
  · simp [hc]

/-- C8 witness: the format string .3f matches the grammar with type code
f, which the fixed set contains, so validation succeeds. -/
theorem numberformat_type_code_witness :
    numberFormatMatch ".3f" = some (some 'f') ∧
    (∃ v, numberFormatValidate ".3f" = .ok v) :=
  ⟨by decide, (numberformat_type_code ".3f" 'f' (by decide)).1.mpr (by decide)⟩

theorem hex3_eq_some (l r : List Char) :
    hex3 l = some r ↔
      ∃ a b c, l = a :: b :: c :: r ∧
        (hexDigitChar a && hexDigitChar b && hexDigitChar c) = true := by
  rcases l with _ | ⟨a, _ | ⟨b, _ | ⟨c, rest⟩⟩⟩
  · simp [hex3]
  · simp [hex3]
  · simp [hex3]
  · by_cases h : (hexDigitChar a && hexDigitChar b && hexDigitChar c) = true
    · simp only [hex3, h, if_true, Option.some.injEq, List.cons.injEq]
      constructor
      · rintro rfl
        refine ⟨a, b, c, ⟨rfl, rfl, rfl, rfl⟩, h⟩
      · rintro ⟨a1, b1, c1, ⟨rfl, rfl, rfl, rfl⟩, _⟩
        rfl
    · simp only [hex3, h, if_false]
      constructor
      · intro hfalse
        cases hfalse
      · rintro ⟨a1, b1, c1, ⟨rfl, rfl, rfl, rfl⟩, hh⟩
        exact absurd hh h

theorem endOk_iff (l : List Char) : endOk l = true ↔ l = [] ∨ l = ['\n'] := by
  rcases l with _ | ⟨c, _ | ⟨d, t⟩⟩ <;> simp [endOk]

theorem list_length_eq_six {t : List Char} (h : t.length = 6) :
    ∃ a b c d e f, t = [a, b, c, d, e, f] := by
  rcases t with _ | ⟨a, _ | ⟨b, _ | ⟨c, _ | ⟨d, _ | ⟨e, _ | ⟨f, rest⟩⟩⟩⟩⟩⟩ <;>
    simp_all

theorem colorBody_iff (l : List Char) :
    colorBody l = true ↔
      ∃ t, (l = t ∨ l = t ++ ['\n']) ∧ (t.length = 3 ∨ t.length = 6) ∧
        t.all hexDigitChar = true := by
  constructor
  · intro h
    unfold colorBody at h
    cases h1 : hex3 l with
    | none => rw [h1] at h; cases h
    | some r1 =>
      rw [h1] at h
      obtain ⟨a, b, c, hl, habc⟩ := (hex3_eq_some l r1).mp h1
      rcases Bool.or_eq_true_iff.mp h with h | h
      · rcases (endOk_iff r1).mp h with rfl | rfl
        · exact ⟨[a, b, c], Or.inl (by simpa using hl), Or.inl rfl,
            by simp only [Bool.and_eq_true] at habc
               simp [habc.1.1, habc.1.2, habc.2]⟩
        · exact ⟨[a, b, c], Or.inr (by simpa using hl), Or.inl rfl,
            by simp only [Bool.and_eq_true] at habc
               simp [habc.1.1, habc.1.2, habc.2]⟩
      · cases h2 : hex3 r1 with
        | none => rw [h2] at h; cases h
        | some r2 =>
          rw [h2] at h
          obtain ⟨d, e, f, hr1, hdef⟩ := (hex3_eq_some r1 r2).mp h2
          rcases (endOk_iff r2).mp h with rfl | rfl
          · refine ⟨[a, b, c, d, e, f], Or.inl ?_, Or.inr rfl, ?_⟩
            · rw [hl, hr1]
            · simp only [List.all_cons, List.all_nil, Bool.and_true]
              simp only [Bool.and_eq_true] at habc hdef ⊢
              exact ⟨habc.1.1, habc.1.2, habc.2, hdef.1.1, hdef.1.2, hdef.2⟩
          · refine ⟨[a, b, c, d, e, f], Or.inr ?_, Or.inr rfl, ?_⟩
            · rw [hl, hr1]; rfl
            · simp only [List.all_cons, List.all_nil, Bool.and_true]
              simp only [Bool.and_eq_true] at habc hdef ⊢
              exact ⟨habc.1.1, habc.1.2, habc.2, hdef.1.1, hdef.1.2, hdef.2⟩
  · rintro ⟨t, hrest, hlen, hall⟩
    rcases hlen with h3 | h6
    · obtain ⟨a, b, c, rfl⟩ := List.length_eq_three.mp h3
      simp only [List.all_cons, List.all_nil, Bool.and_true, Bool.and_eq_true] at hall
      rcases hrest with rfl | rfl <;>
        simp [colorBody, hex3, endOk, hall.1, hall.2.1, hall.2.2]
    · obtain ⟨a, b, c, d, e, f, rfl⟩ := list_length_eq_six h6
      simp only [List.all_cons, List.all_nil, Bool.and_true, Bool.and_eq_true] at hall
      rcases hrest with rfl | rfl <;>
        simp [colorBody, hex3, endOk, hall.1, hall.2.1, hall.2.2.1,
          hall.2.2.2.1, hall.2.2.2.2.1, hall.2.2.2.2.2]

theorem colorReMatch_iff (s : String) :
    colorReMatch s = true ↔
      ∃ t, (s.data = '#' :: t ∨ s.data = '#' :: (t ++ ['\n'])) ∧
        (t.length = 3 ∨ t.length = 6) ∧ t.all hexDigitChar = true := by
  unfold colorReMatch
  cases hd : s.data with
  | nil => simp
  | cons c rest =>
    change (c == '#' && colorBody rest) = true ↔ _
    constructor
    · intro h
      rw [Bool.and_eq_true, beq_iff_eq] at h
      obtain ⟨rfl, hb⟩ := h
      obtain ⟨t, hrest, hlen, hall⟩ := (colorBody_iff rest).mp hb
      refine ⟨t, ?_, hlen, hall⟩
      rcases hrest with rfl | h2
      · exact Or.inl rfl
      · exact Or.inr (by rw [h2])
    · rintro ⟨t, hrest, hlen, hall⟩
      rw [Bool.and_eq_true, beq_iff_eq]
      rcases hrest with h1 | h1
      · injection h1 with hc h2
        subst hc
        subst h2
        exact ⟨rfl, (colorBody_iff rest).mpr ⟨rest, Or.inl rfl, hlen, hall⟩⟩
      · injection h1 with hc h2
        subst hc
        subst h2
        exact ⟨rfl, (colorBody_iff (t ++ ['\n'])).mpr ⟨t, Or.inr rfl, hlen, hall⟩⟩

/-- C2 counterexample: the dollar anchor of _color_re also matches just
before one final newline, so Color.validate accepts the five-character
string hash-a-b-c-newline, which the anchored pattern of the claim (read
as a formal language over the whole string) rejects. -/
theorem color_validate_spec_counterexample :
    colorValidate "#abc\n" = .ok "#abc\n" ∧ ¬ StrictSpecColor "#abc\n" := by
  refine ⟨by decide, ?_⟩
  rintro (hmem | ⟨t, ht, hlen, hhex⟩)
  · revert hmem; decide
  · have hdata : ("#abc\n").data = ['#', 'a', 'b', 'c', '\n'] := rfl
    rw [hdata] at ht
    injection ht with hc h2
    subst h2
    rcases hlen with h | h <;> simp at h

/-- C2 amended: Color.validate accepts a string exactly when its lowering
is one of the fixed color names or the string is hash followed by 3 or 6
hex digits optionally followed by one final newline (the Python dollar
semantics of _color_re); every other string is rejected with an error
carrying the offending value. -/
theorem color_validate_amended (s : String) :
    (colorValidate s = .ok s ↔ AmendedSpecColor s) ∧
    (¬ AmendedSpecColor s → colorValidate s = .err s) := by
  have hcontains : (colorNames.contains (pyLower s) = true) ↔
      pyLower s ∈ colorNames := by simp
  have key : (colorNames.contains (pyLower s) || colorReMatch s) = true ↔
      AmendedSpecColor s := by
    unfold AmendedSpecColor
    rw [Bool.or_eq_true, hcontains, colorReMatch_iff]
  constructor
  · constructor
    · intro hok
      by_cases h : (colorNames.contains (pyLower s) || colorReMatch s) = true
      · exact key.mp h
      · unfold colorValidate at hok
        rw [if_neg h] at hok
        exact absurd hok (by simp)
    · intro ha
      unfold colorValidate
      rw [if_pos (key.mpr ha)]
  · intro ha
    unfold colorValidate
    rw [if_neg (fun h => ha (key.mp h))]

end IpyTraits
